import Mathlib

/-!
# The filen backend adapter (`backend/filen/filen.go`)

A shallow embedding of the adapter layer of the filen storage backend and the
properties of it that its specification states.

Conventions of the embedding.

* A Go string is a Lean `String`; `path.Clean` and `path.Join` work on its
  characters.  The two bytes they look for, `/` and `.`, are ASCII, so on
  valid UTF-8 the byte loop and the character loop take the same decisions.
* A Go result `(T, error)` is a pair whose second component is an
  `Option Error`: `none` is the `nil` error.  A `nil` slice is `[]`, a `nil`
  interface or pointer result is `none`.
* `int64` values are `Int` (the adapter performs no arithmetic on them).
* `time.Time` is an `Int` (an instant); the adapter only copies such values.
* The remote store is a state of type `σ` that every call on the collaborator
  session may read and change; a `World` pairs it with the log of the calls
  made on the session so far.
* `context.Context` arguments and the variadic `fs.OpenOption` arguments are
  read by no method body and are left out.
-/

/-! ## Go's `path` package: `Clean` and `Join` -/

namespace pathModule

/-- The output buffer of `path.Clean` (`lazybuf`), represented by the bytes
written so far: `w` is their number, `index i` the `i`-th of them, `append`
writes at `w`.  Go shares storage with the input until the output differs from
it, which changes no value read back. -/
structure lazybuf where
  /-- the first `w` bytes of the output -/
  buf : List Char
  deriving DecidableEq, Repr

/-- The write position `out.w`. -/
def lazybuf.w (b : lazybuf) : Nat := b.buf.length

/-- Method `out.append(c)`. -/
def lazybuf.append (b : lazybuf) (c : Char) : lazybuf := ⟨b.buf ++ [c]⟩

/-- Method `out.index(i)`. -/
def lazybuf.index (b : lazybuf) (i : Nat) : Char := b.buf.getD i ' '

/-- Method `out.string()`. -/
def lazybuf.string (b : lazybuf) : List Char := b.buf

/-- The scan `for out.w > dotdot && out.index(out.w) != '/' { out.w-- }`,
started at write position `w`; the bytes read are those of `b`, the buffer as it
was before the position moved.  Returns the final position. -/
def backScan (b : lazybuf) (dotdot : Nat) : Nat → Nat
  | 0 => 0
  | w + 1 => if w + 1 > dotdot ∧ b.index (w + 1) ≠ '/' then backScan b dotdot w else w + 1

/-- The backtrack of a `..` element: `out.w--` followed by the scan back to the
previous `/`; the output keeps the bytes before the final position. -/
def backtrack (b : lazybuf) (dotdot : Nat) : lazybuf :=
  ⟨b.buf.take (backScan b dotdot (b.w - 1))⟩

/-- The copy loop `for ; r < n && path[r] != '/'; r++ { out.append(path[r]) }`
on the unread input: returns the input left and the buffer. -/
def copyElement : List Char → lazybuf → List Char × lazybuf
  | [], out => ([], out)
  | c :: rest, out => if c = '/' then (c :: rest, out) else copyElement rest (out.append c)

/-- The lookahead test `r+k == n || path[r+k] == '/'` on the input from `r+k`. -/
def atBoundary : List Char → Bool
  | [] => true
  | c :: _ => decide (c = '/')

/-- The state of the loop of `path.Clean` besides the read position. -/
structure CleanState where
  out : lazybuf
  dotdot : Nat
  deriving DecidableEq, Repr

/-- The inner `switch` of a `..` element: backtrack over the last element
written when there is one after `dotdot`; otherwise, on a path that is not
rooted, append `..` (after a `/` when the output is not empty) and move
`dotdot` past it; on a rooted path do nothing. -/
def dotdotElement (rooted : Bool) (s : CleanState) : CleanState :=
  if s.out.w > s.dotdot then
    -- can backtrack
    { s with out := backtrack s.out s.dotdot }
  else if ¬ rooted then
    -- cannot backtrack, but not rooted, so append .. element
    let out := if s.out.w > 0 then s.out.append '/' else s.out
    let out := (out.append '.').append '.'
    { out := out, dotdot := out.w }
  else s

/-- The statement `if rooted && out.w != 1 || !rooted && out.w != 0
{ out.append('/') }` before a real path element. -/
def addSlash (rooted : Bool) (out : lazybuf) : lazybuf :=
  if (rooted ∧ out.w ≠ 1) ∨ (¬ rooted ∧ out.w ≠ 0) then out.append '/' else out

/-- One iteration of the loop `for r < n { switch { ... } }` of `path.Clean`, on
the unread input `path[r:]` (non-empty).  Returns the input left to read and
the new state. -/
def cleanStep (rooted : Bool) : List Char → CleanState → List Char × CleanState
  | [], s => ([], s)
  | c :: rest, s =>
    if c = '/' then
      -- empty path element
      (rest, s)
    else if c = '.' ∧ atBoundary rest then
      -- . element
      (rest, s)
    else if c = '.' ∧ rest.head? = some '.' ∧ atBoundary rest.tail then
      -- .. element: remove to last /
      (rest.tail, dotdotElement rooted s)
    else
      -- real path element: add slash if needed, copy element
      let r := copyElement (c :: rest) (addSlash rooted s.out)
      (r.1, { s with out := r.2 })

/-- The loop `for r < n` of `path.Clean`: iterations of `cleanStep` until the
input is read.  Every iteration reads at least one byte, so `fuel` equal to
the length of the input is enough (`cleanLoop_fuel`). -/
def cleanLoop (rooted : Bool) : Nat → List Char → CleanState → CleanState
  | 0, _, s => s
  | fuel + 1, path, s =>
    match path with
    | [] => s
    | c :: rest =>
      let r := cleanStep rooted (c :: rest) s
      cleanLoop rooted fuel r.1 r.2

/-- Go's `path.Clean` on the characters of the path. -/
def cleanChars (path : List Char) : List Char :=
  if path = [] then ['.']
  else
    let rooted := decide (path.head? = some '/')
    let s0 : CleanState :=
      if rooted then { out := (lazybuf.mk []).append '/', dotdot := 1 }
      else { out := lazybuf.mk [], dotdot := 0 }
    let input := if rooted then path.tail else path
    let s := cleanLoop rooted input.length input s0
    -- Turn empty string into "."
    if s.out.w = 0 then ['.'] else s.out.string

/-- Go's `path.Clean`. -/
def Clean (path : String) : String := ⟨cleanChars path.data⟩

/-- Go's `path.Join`: the non-empty elements are joined by `/` and the result
is cleaned; when every element is empty the result is `""`. -/
def Join (elem : List String) : String :=
  let size := elem.foldl (fun size e => size + e.data.length) 0
  if size = 0 then ""
  else
    let buf := elem.foldl (fun (buf : List Char) e =>
      if buf.length > 0 ∨ e ≠ "" then
        (if buf.length > 0 then buf ++ ['/'] else buf) ++ e.data
      else buf) []
    Clean ⟨buf⟩

/-- The loop of `path.Clean` on an input, with the fuel `Clean` gives it. -/
def cleanRun (rooted : Bool) (path : List Char) (s : CleanState) : CleanState :=
  cleanLoop rooted path.length path s

/-- The elements of a path: the runs of bytes between its `/`. -/
def elements : List Char → List (List Char)
  | [] => [[]]
  | c :: rest =>
    if c = '/' then [] :: elements rest
    else
      match elements rest with
      | [] => [[c]]
      | e :: es => (c :: e) :: es

/-- A path has an element `..`. -/
def hasDotDot (path : String) : Bool := decide (['.', '.'] ∈ elements path.data)

/-- Whether a walk along the elements climbs above the directory it starts
in, `depth` being the number of names it stands below that directory: an empty
element and `.` stay, `..` goes up one name and climbs when there is none,
any other element goes down one name. -/
def climbsFrom : Nat → List (List Char) → Bool
  | _, [] => false
  | depth, e :: es =>
    if e = [] ∨ e = ['.'] then climbsFrom depth es
    else if e = ['.', '.'] then
      match depth with
      | 0 => true
      | k + 1 => climbsFrom k es
    else climbsFrom (depth + 1) es

/-- A path climbs above the directory it is relative to: some `..` element of
it has no earlier name left to cancel (`../etc`, `a/../../b`; not `a/../b`). -/
def climbs (path : String) : Bool := climbsFrom 0 (elements path.data)

/-- The outputs reached from the output `base` by writing `k` names one after
the other, each after the `/` that `addSlash` puts before it. -/
inductive Reach (rooted : Bool) (base : List Char) : Nat → List Char → Prop
  | start : Reach rooted base 0 base
  | push (k : Nat) (out e : List Char) : Reach rooted base k out → e ≠ [] → '/' ∉ e →
      e ≠ ['.', '.'] → Reach rooted base (k + 1) ((addSlash rooted ⟨out⟩).buf ++ e)

/-- Go's `strings.HasPrefix` as a proposition: `s` starts with `p`. -/
def startsWith (s p : String) : Prop := p.data <+: s.data

instance (s p : String) : Decidable (startsWith s p) := by
  unfold startsWith; infer_instance

end pathModule


/-! ## The collaborator: the storage client `sdk` -/

namespace sdk

/-- A file record of the storage client, with the fields the adapter reads
(`Name`, `Size`, `LastModified`) and its identifier. -/
structure File where
  UUID : String
  Name : String
  Size : Int
  LastModified : Int
  deriving DecidableEq, Repr

/-- A directory record of the storage client, with the fields the adapter
reads. -/
structure Directory where
  UUID : String
  Name : String
  Created : Int
  deriving DecidableEq, Repr

end sdk

namespace filen

/-- Go `time.Time`. -/
abbrev Time := Int

/-- A sequence of bytes: the content of a reader or of a download. -/
abbrev Bytes := List UInt8

/-- Error values.  `ErrUnsupported` is `hash.ErrUnsupported`, the error of an
operation the backend does not offer, and `ErrorObjectNotFound` is
`fs.ErrorObjectNotFound`; any other error (of the collaborator, of the
configuration) is `other`. -/
inductive Error
  | ErrUnsupported
  | ErrorObjectNotFound
  | other (msg : String)
  deriving DecidableEq, Repr

end filen

namespace sdk

/-- The session of the storage client (`*sdk.Filen`): the three methods the
adapter calls.  Each reads and may change the remote store `σ`. -/
structure Filen (σ : Type) where
  PathToUUID : σ → String → Bool → (String × Option filen.Error) × σ
  ReadDirectory : σ → String → (List File × List Directory × Option filen.Error) × σ
  DownloadFileInMemory : σ → File → (filen.Bytes × Option filen.Error) × σ

/-- A call made on the session. -/
inductive Call
  | PathToUUID (path : String) (create : Bool)
  | ReadDirectory (uuid : String)
  | DownloadFileInMemory (file : File)
  deriving DecidableEq, Repr

end sdk

namespace hash

/-- The type `hash.Type`: one bit per hash kind. -/
abbrev HashType := Nat

/-- The type `hash.Set`: the bitwise or of the kinds it holds. -/
abbrev Set := Nat

/-- Method `Set.Contains`: `int(h)&int(t) != 0`. -/
def Set.Contains (h : Set) (t : HashType) : Bool := decide (h &&& t ≠ 0)

end hash

namespace filen

variable {σ : Type}

/-- The remote store together with the log of the calls made on the session. -/
structure World (σ : Type) where
  remote : σ
  calls : List sdk.Call

/-- Call `PathToUUID` on the session, in world `w`. -/
def callPathToUUID (s : sdk.Filen σ) (w : World σ) (path : String) (create : Bool) :
    (String × Option Error) × World σ :=
  let r := s.PathToUUID w.remote path create
  (r.1, ⟨r.2, w.calls ++ [sdk.Call.PathToUUID path create]⟩)

/-- Call `ReadDirectory` on the session, in world `w`. -/
def callReadDirectory (s : sdk.Filen σ) (w : World σ) (uuid : String) :
    (List sdk.File × List sdk.Directory × Option Error) × World σ :=
  let r := s.ReadDirectory w.remote uuid
  (r.1, ⟨r.2, w.calls ++ [sdk.Call.ReadDirectory uuid]⟩)

/-- Call `DownloadFileInMemory` on the session, in world `w`. -/
def callDownloadFileInMemory (s : sdk.Filen σ) (w : World σ) (file : sdk.File) :
    (Bytes × Option Error) × World σ :=
  let r := s.DownloadFileInMemory w.remote file
  (r.1, ⟨r.2, w.calls ++ [sdk.Call.DownloadFileInMemory file]⟩)

/-- The type `Options`. -/
structure Options where
  Email : String
  Password : String
  deriving DecidableEq, Repr

/-- The type `Fs`. -/
structure Fs (σ : Type) where
  name : String
  root : String
  filen : sdk.Filen σ

/-- Method `(*Fs).resolvePath`. -/
def Fs.resolvePath (f : Fs σ) (path : String) : String :=
  pathModule.Join [f.root, path]

/-- Method `(*Fs).Name`. -/
def Fs.Name (f : Fs σ) : String := f.name

/-- Method `(*Fs).Root`. -/
def Fs.Root (f : Fs σ) : String := f.root

/-- Method `(*Fs).Hashes`: `return 0`. -/
def Fs.Hashes (_f : Fs σ) : hash.Set := 0

/-- The type `Directory`. -/
structure Directory (σ : Type) where
  fs : Fs σ
  id : String
  path : String
  size : Int
  items : Int
  created : Time

/-- Method `(*Directory).Remote`. -/
def Directory.Remote (dir : Directory σ) : String := dir.path

/-- Method `(*Directory).ModTime`. -/
def Directory.ModTime (dir : Directory σ) : Time := dir.created

/-- Method `(*Directory).Size`. -/
def Directory.Size (dir : Directory σ) : Int := dir.size

/-- Method `(*Directory).Items`. -/
def Directory.Items (dir : Directory σ) : Int := dir.items

/-- Method `(*Directory).ID`. -/
def Directory.ID (dir : Directory σ) : String := dir.id

/-- The type `File`. -/
structure File (σ : Type) where
  fs : Fs σ
  file : sdk.File
  name : String

/-- Method `(*File).Remote`. -/
def File.Remote (file : File σ) : String := file.name

/-- Method `(*File).ModTime`. -/
def File.ModTime (file : File σ) : Time := file.file.LastModified

/-- Method `(*File).Size`. -/
def File.Size (file : File σ) : Int := file.file.Size

/-- Method `(*File).Hash`: `return "", nil`. -/
def File.Hash (_file : File σ) (w : World σ) (_ty : hash.HashType) :
    (String × Option Error) × World σ :=
  (("", none), w)

/-- Method `(*File).Storable`. -/
def File.Storable (_file : File σ) : Bool := true

/-- Method `(*File).SetModTime`: `return nil`. -/
def File.SetModTime (_file : File σ) (w : World σ) (_t : Time) : Option Error × World σ :=
  (none, w)

/-- Method `(*File).Open`: downloads the whole content and returns a reader
over it; the reader is represented by the bytes it yields. -/
def File.Open (file : File σ) (w : World σ) : (Option Bytes × Option Error) × World σ :=
  let r := callDownloadFileInMemory file.fs.filen w file.file
  match r.1.2 with
  | some err => ((none, some err), r.2)
  | none => ((some r.1.1, none), r.2)

/-- The interface `fs.ObjectInfo` of the source of an upload, by the values it
reports. -/
structure ObjectInfo where
  Remote : String
  Size : Int
  ModTime : Time
  deriving DecidableEq, Repr

/-- Method `(*File).Update`: `return nil`. -/
def File.Update (_file : File σ) (w : World σ) (_in : Bytes) (_src : ObjectInfo) :
    Option Error × World σ :=
  (none, w)

/-- Method `(*File).Remove`: `return nil`. -/
def File.Remove (_file : File σ) (w : World σ) : Option Error × World σ :=
  (none, w)

/-- The interface `fs.DirEntry`, implemented by `*Directory` and `*File`. -/
inductive DirEntry (σ : Type) where
  | dir (d : Directory σ)
  | file (f : File σ)

/-- The type `fs.DirEntries`. -/
abbrev DirEntries (σ : Type) := List (DirEntry σ)

/-- Interface method `Remote` of a `DirEntry`. -/
def DirEntry.Remote : DirEntry σ → String
  | .dir d => d.Remote
  | .file f => f.Remote

/-- Interface method `ModTime` of a `DirEntry`. -/
def DirEntry.ModTime : DirEntry σ → Time
  | .dir d => d.ModTime
  | .file f => f.ModTime

/-- Interface method `Size` of a `DirEntry`. -/
def DirEntry.Size : DirEntry σ → Int
  | .dir d => d.Size
  | .file f => f.Size

/-- Method `(*Fs).NewObject`: `return nil, nil`. -/
def Fs.NewObject (_f : Fs σ) (w : World σ) (_remote : String) :
    (Option (File σ) × Option Error) × World σ :=
  ((none, none), w)

/-- Method `(*Fs).Put`: `return nil, nil`. -/
def Fs.Put (_f : Fs σ) (w : World σ) (_in : Bytes) (_src : ObjectInfo) :
    (Option (File σ) × Option Error) × World σ :=
  ((none, none), w)

/-- Method `(*Fs).Mkdir`: `return nil`. -/
def Fs.Mkdir (_f : Fs σ) (w : World σ) (_dir : String) : Option Error × World σ :=
  (none, w)

/-- Method `(*Fs).Rmdir`: `return nil`. -/
def Fs.Rmdir (_f : Fs σ) (w : World σ) (_dir : String) : Option Error × World σ :=
  (none, w)

/-- Method `(*Fs).List`. -/
def Fs.List (f : Fs σ) (w : World σ) (dir : String) :
    (DirEntries σ × Option Error) × World σ :=
  let r1 := callPathToUUID f.filen w (f.resolvePath dir) true
  match r1.1.2 with
  | some err => (([], some err), r1.2)
  | none =>
    let dirUUID := r1.1.1
    let r2 := callReadDirectory f.filen r1.2 dirUUID
    match r2.1.2.2 with
    | some err => (([], some err), r2.2)
    | none =>
      let files := r2.1.1
      let directories := r2.1.2.1
      let entries : DirEntries σ := []
      let entries := directories.foldl (fun entries directory =>
        entries ++ [DirEntry.dir {
          fs := f,
          id := directory.UUID,
          path := pathModule.Join [dir, directory.Name],
          size := -1,
          items := -1,
          created := directory.Created }]) entries
      let entries := files.foldl (fun entries file =>
        entries ++ [DirEntry.file {
          fs := f,
          file := file,
          name := pathModule.Join [dir, file.Name] }]) entries
      ((entries, none), r2.2)

/-- The type `configmap.Mapper`, by its lookup `Get`. -/
abbrev Mapper := String → Option String

/-- The library functions `NewFs` calls: `configstruct.Set` (by the options it
leaves in the fresh `Options` value and its error), `obscure.Reveal` and the
session constructor `sdk.New`, which talks to the remote store. -/
structure Env (σ : Type) where
  Set : Mapper → Options × Option Error
  Reveal : String → String × Option Error
  New : σ → String → String → (sdk.Filen σ × Option Error) × σ

/-- Function `NewFs`. -/
def NewFs (env : Env σ) (remote : σ) (name root : String) (m : Mapper) :
    (Option (Fs σ) × Option Error) × σ :=
  let r := env.Set m
  let opt := r.1
  match r.2 with
  | some err => ((none, some err), remote)
  | none =>
    let password := (env.Reveal opt.Password).1
    let r := env.New remote opt.Email password
    match r.1.2 with
    | some err => ((none, some err), r.2)
    | none => ((some ⟨name, root, r.1.1⟩, none), r.2)

end filen

/-! ## Entries of a listing -/

namespace filen

variable {σ : Type}

/-- The `Directory` entry `Fs.List` builds from a directory record. -/
def mkDirectory (f : Fs σ) (dir : String) (directory : sdk.Directory) : Directory σ :=
  { fs := f, id := directory.UUID, path := pathModule.Join [dir, directory.Name],
    size := -1, items := -1, created := directory.Created }

/-- The `File` entry `Fs.List` builds from a file record. -/
def mkFile (f : Fs σ) (dir : String) (file : sdk.File) : File σ :=
  { fs := f, file := file, name := pathModule.Join [dir, file.Name] }

end filen

/-! ## A concrete session, for evaluating the adapter -/

namespace filen

/-- A session over a store that counts the calls it served.  The path
`/backup/docs` resolves to `uuid-docs`, which holds the directory `img` and the
file `readme.txt`; the path `/backup/broken` resolves to `uuid-broken`, which
cannot be read; no other path resolves. -/
def sampleSession : sdk.Filen Nat where
  PathToUUID := fun n path _ =>
    if path = "/backup/docs" then (("uuid-docs", none), n + 1)
    else if path = "/backup/broken" then (("uuid-broken", none), n + 1)
    else (("", some (Error.other "not found")), n + 1)
  ReadDirectory := fun n uuid =>
    if uuid = "uuid-docs" then
      (([⟨"uuid-readme", "readme.txt", 5, 1700000000⟩], [⟨"uuid-img", "img", 1600000000⟩], none),
        n + 1)
    else (([], [], some (Error.other "read failed")), n + 1)
  DownloadFileInMemory := fun n _ => (([104, 101, 108, 108, 111], none), n + 1)

/-- A filesystem with root `/backup` over `sampleSession`. -/
def sampleFs : Fs Nat := ⟨"remote", "/backup", sampleSession⟩

/-- A configuration holding an email and an obscured password. -/
def sampleMapper : Mapper := fun key =>
  if key = "email" then some "user@example.org"
  else if key = "password" then some "c2VjcmV0"
  else none

/-- Library functions for `NewFs`: `Set` reads the two options and fails when
one is missing, `Reveal` fails on every input and returns it unchanged, `New`
fails on an empty email and otherwise opens `sampleSession`. -/
def sampleEnv : Env Nat where
  Set := fun m =>
    match m "email", m "password" with
    | some email, some password => (⟨email, password⟩, none)
    | _, _ => (⟨"", ""⟩, some (Error.other "missing option"))
  Reveal := fun s => (s, some (Error.other "input too short when revealing password"))
  New := fun n email _ =>
    ((sampleSession, if email = "" then some (Error.other "login failed") else none), n + 1)

/-- The world before any call. -/
def sampleWorld : World Nat := ⟨0, []⟩

/-- The `Directory` entry `sampleFs` lists for `img`. -/
def sampleDirectory : Directory Nat :=
  { fs := sampleFs, id := "uuid-img", path := "docs/img", size := -1, items := -1,
    created := 1600000000 }

/-- The `File` entry `sampleFs` lists for `readme.txt`. -/
def sampleFile : File Nat :=
  { fs := sampleFs, file := ⟨"uuid-readme", "readme.txt", 5, 1700000000⟩,
    name := "docs/readme.txt" }

end filen

/-! ## Properties of `Fs.List` -/

namespace filen

variable {σ : Type}

theorem foldl_append_singleton {α β : Type} (g : α → β) (xs : List α) (acc : List β) :
    xs.foldl (fun acc x => acc ++ [g x]) acc = acc ++ xs.map g := by
  induction xs generalizing acc with
  | nil => simp
  | cons x xs ih => simp [ih]

/-- When resolution and the directory read succeed, the listing is the
directory entries followed by the file entries, each in the collaborator's
order, and the world is the one the two calls left. -/
theorem List_ok (f : Fs σ) (w : World σ) (dir uuid : String) (s1 s2 : σ)
    (files : List sdk.File) (directories : List sdk.Directory)
    (h1 : f.filen.PathToUUID w.remote (f.resolvePath dir) true = ((uuid, none), s1))
    (h2 : f.filen.ReadDirectory s1 uuid = ((files, directories, none), s2)) :
    f.List w dir =
      ((directories.map (fun d => DirEntry.dir (mkDirectory f dir d)) ++
          files.map (fun x => DirEntry.file (mkFile f dir x)), none),
        ⟨s2, w.calls ++ [sdk.Call.PathToUUID (f.resolvePath dir) true] ++
          [sdk.Call.ReadDirectory uuid]⟩) := by
  simp only [Fs.List, callPathToUUID, callReadDirectory, h1, h2]
  have hd := foldl_append_singleton (fun d => DirEntry.dir (mkDirectory f dir d)) directories []
  have hf := fun acc =>
    foldl_append_singleton (fun x => DirEntry.file (mkFile f dir x)) files acc
  simp only [mkDirectory, mkFile] at hd hf
  rw [hd, hf]
  simp [mkDirectory, mkFile]

/-- When resolution fails, `Fs.List` returns its error and no entry, after the
one call `PathToUUID`. -/
theorem List_resolve_error (f : Fs σ) (w : World σ) (dir : String) (e : Error)
    (h1 : (f.filen.PathToUUID w.remote (f.resolvePath dir) true).1.2 = some e) :
    f.List w dir =
      (([], some e), ⟨(f.filen.PathToUUID w.remote (f.resolvePath dir) true).2,
        w.calls ++ [sdk.Call.PathToUUID (f.resolvePath dir) true]⟩) := by
  simp only [Fs.List, callPathToUUID, h1]

/-- When resolution succeeds and the directory read fails, `Fs.List` returns
the error of the read and no entry. -/
theorem List_read_error (f : Fs σ) (w : World σ) (dir : String) (e : Error)
    (h1 : (f.filen.PathToUUID w.remote (f.resolvePath dir) true).1.2 = none)
    (h2 : (f.filen.ReadDirectory (f.filen.PathToUUID w.remote (f.resolvePath dir) true).2
      (f.filen.PathToUUID w.remote (f.resolvePath dir) true).1.1).1.2.2 = some e) :
    f.List w dir =
      (([], some e),
        ⟨(f.filen.ReadDirectory (f.filen.PathToUUID w.remote (f.resolvePath dir) true).2
            (f.filen.PathToUUID w.remote (f.resolvePath dir) true).1.1).2,
          w.calls ++ [sdk.Call.PathToUUID (f.resolvePath dir) true] ++
            [sdk.Call.ReadDirectory
              (f.filen.PathToUUID w.remote (f.resolvePath dir) true).1.1]⟩) := by
  simp only [Fs.List, callPathToUUID, callReadDirectory, h1, h2]

/-- The entries of a listing, whatever the collaborator answered: none on an
error, and otherwise the directory entries followed by the file entries. -/
theorem List_entries (f : Fs σ) (w : World σ) (dir : String) :
    (f.List w dir).1.1 = [] ∨
    ∃ (files : List sdk.File) (directories : List sdk.Directory),
      (f.List w dir).1.1 =
        directories.map (fun d => DirEntry.dir (mkDirectory f dir d)) ++
          files.map (fun x => DirEntry.file (mkFile f dir x)) := by
  rcases h1 : f.filen.PathToUUID w.remote (f.resolvePath dir) true with ⟨⟨uuid, e1⟩, s1⟩
  cases e1 with
  | some e =>
    left
    rw [List_resolve_error f w dir e (by rw [h1])]
  | none =>
    rcases h2 : f.filen.ReadDirectory s1 uuid with ⟨⟨files, directories, e2⟩, s2⟩
    cases e2 with
    | some e =>
      left
      rw [List_read_error f w dir e (by rw [h1]) (by rw [h1]; simp [h2])]
    | none =>
      right
      exact ⟨files, directories, by rw [List_ok f w dir uuid s1 s2 files directories h1 h2]⟩

theorem sampleFs_List :
    sampleFs.List sampleWorld "docs" =
      (([DirEntry.dir sampleDirectory, DirEntry.file sampleFile], none),
        ⟨2, [sdk.Call.PathToUUID "/backup/docs" true, sdk.Call.ReadDirectory "uuid-docs"]⟩) := by
  have h := List_ok sampleFs sampleWorld "docs" "uuid-docs" 1 2
    [⟨"uuid-readme", "readme.txt", 5, 1700000000⟩] [⟨"uuid-img", "img", 1600000000⟩]
    (by decide) (by decide)
  rw [h]
  have e1 : pathModule.Join ["docs", "img"] = "docs/img" := by decide
  have e2 : pathModule.Join ["docs", "readme.txt"] = "docs/readme.txt" := by decide
  have e3 : sampleFs.resolvePath "docs" = "/backup/docs" := by decide
  simp [mkDirectory, mkFile, sampleDirectory, sampleFile, sampleWorld, e1, e2, e3]

/-- C1: every `Directory` entry that `Fs.List` returns reports `Size() = -1`
and `Items() = -1`, the unknown sentinel, and so never `0`, whatever the
filesystem, the path, the world and the records the collaborator answered. -/
theorem List_directory_sentinels (f : Fs σ) (w : World σ) (dir : String) (d : Directory σ)
    (h : DirEntry.dir d ∈ (f.List w dir).1.1) :
    d.Size = -1 ∧ d.Items = -1 ∧ d.Size ≠ 0 ∧ d.Items ≠ 0 := by
  have key : d.Size = -1 ∧ d.Items = -1 := by
    rcases List_entries f w dir with h0 | ⟨files, directories, h0⟩
    · rw [h0] at h
      exact absurd h (List.not_mem_nil _)
    · rw [h0, List.mem_append, List.mem_map, List.mem_map] at h
      rcases h with ⟨x, _, hx⟩ | ⟨x, _, hx⟩
      · injection hx with hx
        subst hx
        exact ⟨rfl, rfl⟩
      · exact DirEntry.noConfusion hx
  refine ⟨key.1, key.2, ?_, ?_⟩
  · rw [key.1]; decide
  · rw [key.2]; decide

theorem List_directory_sentinels_witness :
    DirEntry.dir sampleDirectory ∈ (sampleFs.List sampleWorld "docs").1.1 ∧
    sampleDirectory.Size = -1 ∧ sampleDirectory.Items = -1 ∧
    sampleDirectory.Size ≠ 0 ∧ sampleDirectory.Items ≠ 0 :=
  have hmem : DirEntry.dir sampleDirectory ∈ (sampleFs.List sampleWorld "docs").1.1 := by
    rw [sampleFs_List]
    exact List.mem_cons_self _ _
  ⟨hmem, List_directory_sentinels sampleFs sampleWorld "docs" sampleDirectory hmem⟩

/-- C2: when resolution gives `uuid` and the directory read gives `files` and
`directories`, the entries of `Fs.List dir` have, in order, the virtual paths
`path.Join(dir, Name)` of the directory records followed by those of the file
records; the root of the filesystem does not occur in them. -/
theorem List_remote (f : Fs σ) (w : World σ) (dir uuid : String) (s1 s2 : σ)
    (files : List sdk.File) (directories : List sdk.Directory)
    (h1 : f.filen.PathToUUID w.remote (f.resolvePath dir) true = ((uuid, none), s1))
    (h2 : f.filen.ReadDirectory s1 uuid = ((files, directories, none), s2)) :
    (f.List w dir).1.1.map DirEntry.Remote =
      directories.map (fun d => pathModule.Join [dir, d.Name]) ++
        files.map (fun x => pathModule.Join [dir, x.Name]) := by
  rw [List_ok f w dir uuid s1 s2 files directories h1 h2]
  simp [DirEntry.Remote, Directory.Remote, File.Remote, mkDirectory, mkFile,
    Function.comp_def]

theorem List_remote_witness :
    (sampleFs.List sampleWorld "docs").1.1.map DirEntry.Remote =
      [pathModule.Join ["docs", "img"]] ++ [pathModule.Join ["docs", "readme.txt"]] :=
  List_remote sampleFs sampleWorld "docs" "uuid-docs" 1 2
    [⟨"uuid-readme", "readme.txt", 5, 1700000000⟩] [⟨"uuid-img", "img", 1600000000⟩]
    (by decide) (by decide)

/-- C3: `Fs.List` returns an error exactly when `PathToUUID` fails, or it
succeeds and `ReadDirectory` on the identifier it gave fails.  When
`PathToUUID` fails with `e`, the result is no entry and `e`, and the only call
made on the session is that `PathToUUID`: `ReadDirectory` is not called.  When
`ReadDirectory` fails with `e`, the result is no entry and `e`. -/
theorem List_error_iff (f : Fs σ) (w : World σ) (dir : String) :
    ((f.List w dir).1.2 ≠ none ↔
      ((f.filen.PathToUUID w.remote (f.resolvePath dir) true).1.2 ≠ none ∨
       ((f.filen.PathToUUID w.remote (f.resolvePath dir) true).1.2 = none ∧
        (f.filen.ReadDirectory (f.filen.PathToUUID w.remote (f.resolvePath dir) true).2
          (f.filen.PathToUUID w.remote (f.resolvePath dir) true).1.1).1.2.2 ≠ none))) ∧
    (∀ e, (f.filen.PathToUUID w.remote (f.resolvePath dir) true).1.2 = some e →
      (f.List w dir).1 = ([], some e) ∧
      (f.List w dir).2.calls = w.calls ++ [sdk.Call.PathToUUID (f.resolvePath dir) true] ∧
      (f.List w dir).2.remote = (f.filen.PathToUUID w.remote (f.resolvePath dir) true).2) ∧
    (∀ e, (f.filen.PathToUUID w.remote (f.resolvePath dir) true).1.2 = none →
      (f.filen.ReadDirectory (f.filen.PathToUUID w.remote (f.resolvePath dir) true).2
        (f.filen.PathToUUID w.remote (f.resolvePath dir) true).1.1).1.2.2 = some e →
      (f.List w dir).1 = ([], some e)) := by
  refine ⟨?_, ?_, ?_⟩
  · rcases h1 : f.filen.PathToUUID w.remote (f.resolvePath dir) true with ⟨⟨uuid, e1⟩, s1⟩
    cases e1 with
    | some e =>
      rw [List_resolve_error f w dir e (by rw [h1])]
      simp
    | none =>
      rcases h2 : f.filen.ReadDirectory s1 uuid with ⟨⟨files, directories, e2⟩, s2⟩
      cases e2 with
      | some e =>
        rw [List_read_error f w dir e (by rw [h1]) (by rw [h1]; simp [h2])]
        simp
      | none =>
        rw [List_ok f w dir uuid s1 s2 files directories h1 h2]
        simp
  · intro e h1
    rw [List_resolve_error f w dir e h1]
    exact ⟨rfl, rfl, rfl⟩
  · intro e h1 h2
    rw [List_read_error f w dir e h1 h2]

theorem List_error_iff_witness :
    (sampleFs.List sampleWorld "nope").1 = ([], some (Error.other "not found")) ∧
    (sampleFs.List sampleWorld "nope").2.calls =
      sampleWorld.calls ++ [sdk.Call.PathToUUID (sampleFs.resolvePath "nope") true] ∧
    (sampleFs.List sampleWorld "nope").2.remote =
      (sampleFs.filen.PathToUUID sampleWorld.remote (sampleFs.resolvePath "nope") true).2 :=
  (List_error_iff sampleFs sampleWorld "nope").2.1 (Error.other "not found") (by decide)

/-- C9: when the collaborator returns the files `F` and the directories `D`,
`Fs.List` returns `len(D) + len(F)` entries: the `i`-th is the `Directory` built
from `D[i]` (its `ID` is `D[i].UUID`, its `ModTime` is `D[i].Created`) and the
`len(D) + j`-th is the `File` built from `F[j]` (its `Size` is `F[j].Size`, its
`ModTime` is `F[j].LastModified`): nothing is sorted or filtered. -/
theorem List_order (f : Fs σ) (w : World σ) (dir uuid : String) (s1 s2 : σ)
    (F : List sdk.File) (D : List sdk.Directory)
    (h1 : f.filen.PathToUUID w.remote (f.resolvePath dir) true = ((uuid, none), s1))
    (h2 : f.filen.ReadDirectory s1 uuid = ((F, D, none), s2)) :
    (f.List w dir).1.1.length = D.length + F.length ∧
    (∀ i (hi : i < D.length), ∃ d : Directory σ,
      (f.List w dir).1.1[i]? = some (DirEntry.dir d) ∧
      d.ID = (D.get ⟨i, hi⟩).UUID ∧ d.ModTime = (D.get ⟨i, hi⟩).Created) ∧
    (∀ j (hj : j < F.length), ∃ x : File σ,
      (f.List w dir).1.1[D.length + j]? = some (DirEntry.file x) ∧
      x.Size = (F.get ⟨j, hj⟩).Size ∧ x.ModTime = (F.get ⟨j, hj⟩).LastModified) := by
  rw [List_ok f w dir uuid s1 s2 F D h1 h2]
  refine ⟨by simp, ?_, ?_⟩
  · intro i hi
    refine ⟨mkDirectory f dir (D.get ⟨i, hi⟩), ?_, rfl, rfl⟩
    rw [List.getElem?_append_left (by simpa using hi)]
    simp [List.getElem?_map, List.getElem?_eq_getElem hi]
  · intro j hj
    refine ⟨mkFile f dir (F.get ⟨j, hj⟩), ?_, rfl, rfl⟩
    rw [List.getElem?_append_right (by simp)]
    simp [List.getElem?_map, List.getElem?_eq_getElem hj]

theorem List_order_witness :
    (sampleFs.List sampleWorld "docs").1.1.length = 1 + 1 ∧
    (∀ i (hi : i < 1), ∃ d : Directory Nat,
      (sampleFs.List sampleWorld "docs").1.1[i]? = some (DirEntry.dir d) ∧
      d.ID = ([(⟨"uuid-img", "img", 1600000000⟩ : sdk.Directory)].get ⟨i, hi⟩).UUID ∧
      d.ModTime = ([(⟨"uuid-img", "img", 1600000000⟩ : sdk.Directory)].get ⟨i, hi⟩).Created) ∧
    (∀ j (hj : j < 1), ∃ x : File Nat,
      (sampleFs.List sampleWorld "docs").1.1[1 + j]? = some (DirEntry.file x) ∧
      x.Size = ([(⟨"uuid-readme", "readme.txt", 5, 1700000000⟩ : sdk.File)].get ⟨j, hj⟩).Size ∧
      x.ModTime =
        ([(⟨"uuid-readme", "readme.txt", 5, 1700000000⟩ : sdk.File)].get ⟨j, hj⟩).LastModified) :=
  List_order sampleFs sampleWorld "docs" "uuid-docs" 1 2
    [⟨"uuid-readme", "readme.txt", 5, 1700000000⟩] [⟨"uuid-img", "img", 1600000000⟩]
    (by decide) (by decide)

/-! ## The constructor and the operations that are not implemented -/

/-- C10: `NewFs` returns an error exactly when `configstruct.Set` fails or
`sdk.New`, called with the parsed email and the value `obscure.Reveal` returned
for the parsed password, fails.  The error of `obscure.Reveal` is discarded:
the result is the one of an environment whose `Reveal` returns the same values
and never an error.  On success the filesystem has the given name and root and
the session `sdk.New` returned. -/
theorem NewFs_error_iff (env : Env σ) (remote : σ) (name root : String) (m : Mapper) :
    ((NewFs env remote name root m).1.2 ≠ none ↔
      ((env.Set m).2 ≠ none ∨
       (env.New remote (env.Set m).1.Email (env.Reveal (env.Set m).1.Password).1).1.2 ≠ none)) ∧
    NewFs env remote name root m =
      NewFs { env with Reveal := fun s => ((env.Reveal s).1, none) } remote name root m ∧
    ((NewFs env remote name root m).1.2 = none →
      ∃ f : Fs σ, (NewFs env remote name root m).1.1 = some f ∧ f.Name = name ∧ f.Root = root ∧
        f.filen =
          (env.New remote (env.Set m).1.Email (env.Reveal (env.Set m).1.Password).1).1.1) := by
  refine ⟨?_, rfl, ?_⟩
  · unfold NewFs
    rcases hs : env.Set m with ⟨opt, e1⟩
    cases e1 with
    | some e => simp
    | none =>
      rcases hn : env.New remote opt.Email (env.Reveal opt.Password).1 with ⟨⟨sess, e2⟩, s2⟩
      cases e2 <;> simp [hn]
  · unfold NewFs
    rcases hs : env.Set m with ⟨opt, e1⟩
    cases e1 with
    | some e => simp
    | none =>
      rcases hn : env.New remote opt.Email (env.Reveal opt.Password).1 with ⟨⟨sess, e2⟩, s2⟩
      cases e2 <;> simp [hn, Fs.Name, Fs.Root]

theorem NewFs_error_iff_witness :
    (sampleEnv.Reveal (sampleEnv.Set sampleMapper).1.Password).2 ≠ none ∧
    ∃ f : Fs Nat, (NewFs sampleEnv 0 "remote" "/backup" sampleMapper).1.1 = some f ∧
      f.Name = "remote" ∧ f.Root = "/backup" ∧
      f.filen = (sampleEnv.New 0 (sampleEnv.Set sampleMapper).1.Email
        (sampleEnv.Reveal (sampleEnv.Set sampleMapper).1.Password).1).1.1 :=
  ⟨by decide, (NewFs_error_iff sampleEnv 0 "remote" "/backup" sampleMapper).2.2 (by decide)⟩

/-- C4 (the code at the claim): `Fs.Hashes` declares no hash kind, so every kind
`ty` is unsupported, and `File.Hash` returns the empty string with a `nil`
error for it, not `hash.ErrUnsupported`, leaving the world as it was. -/
theorem Hash_returns_empty_success (file : File σ) (w : World σ) (ty : hash.HashType) :
    hash.Set.Contains file.fs.Hashes ty = false ∧
    file.Hash w ty = (("", none), w) ∧
    (file.Hash w ty).1.2 ≠ some Error.ErrUnsupported := by
  refine ⟨?_, rfl, ?_⟩
  · simp [hash.Set.Contains, Fs.Hashes]
  · simp [File.Hash]

/-- C5 (the code at the claim): each of `File.Update`, `File.Remove`,
`File.SetModTime`, `Fs.Put`, `Fs.Mkdir` and `Fs.Rmdir` returns a `nil` error and
leaves the world, the remote store and the log of calls on the session, exactly
as it was. -/
theorem mutations_succeed_without_effect (f : Fs σ) (file : File σ) (w : World σ)
    (data : Bytes) (src : ObjectInfo) (t : Time) (dir : String) :
    file.Update w data src = (none, w) ∧
    file.Remove w = (none, w) ∧
    file.SetModTime w t = (none, w) ∧
    ((f.Put w data src).1.2 = none ∧ (f.Put w data src).2 = w) ∧
    f.Mkdir w dir = (none, w) ∧
    f.Rmdir w dir = (none, w) :=
  ⟨rfl, rfl, rfl, ⟨rfl, rfl⟩, rfl, rfl⟩

/-- C6 (the code at the claim): `Fs.NewObject` returns a `nil` object together
with a `nil` error for every path and in every world, also right after
`File.Remove`; it returns neither a `File` nor `fs.ErrorObjectNotFound`. -/
theorem NewObject_returns_nil_nil (f : Fs σ) (file : File σ) (w : World σ) (remote : String) :
    f.NewObject w remote = ((none, none), w) ∧
    f.NewObject (file.Remove w).2 file.Remote = ((none, none), w) ∧
    (f.NewObject w remote).1.2 ≠ some Error.ErrorObjectNotFound := by
  refine ⟨rfl, rfl, ?_⟩
  simp [Fs.NewObject]

/-- C7 (the code at the claim): `Fs.Put` returns a `nil` object for every
payload, the empty one included, and makes no call on the session: there is
no object to open, so no stream that reads the payload back. -/
theorem Put_returns_no_object (f : Fs σ) (w : World σ) (data : Bytes) (src : ObjectInfo) :
    f.Put w data src = ((none, none), w) ∧
    ¬ ∃ (file : File σ) (w2 : World σ),
        (f.Put w data src).1.1 = some file ∧ (file.Open w2).1.1 = some data := by
  refine ⟨rfl, ?_⟩
  rintro ⟨file, w2, h, _⟩
  simp [Fs.Put] at h

end filen

/-! ## Properties of `path.Clean` and `path.Join` -/

namespace pathModule

theorem copyElement_length (p : List Char) (out : lazybuf) :
    (copyElement p out).1.length ≤ p.length := by
  induction p generalizing out with
  | nil => simp [copyElement]
  | cons c rest ih =>
    simp only [copyElement]
    split
    · simp
    · exact Nat.le_succ_of_le (ih _)

theorem cleanStep_length (rooted : Bool) (c : Char) (rest : List Char) (s : CleanState) :
    (cleanStep rooted (c :: rest) s).1.length ≤ rest.length := by
  simp only [cleanStep]
  split_ifs with h1 h2 h3
  · simp
  · simp
  · simp [List.length_tail]
  · simp only [copyElement, if_neg h1]
    exact copyElement_length _ _

theorem cleanLoop_fuel (rooted : Bool) (fuel : Nat) (path : List Char) (s : CleanState)
    (h : path.length ≤ fuel) :
    cleanLoop rooted fuel path s = cleanLoop rooted path.length path s := by
  have key : ∀ (n : Nat) (f1 f2 : Nat) (p : List Char) (t : CleanState), p.length ≤ n →
      p.length ≤ f1 → p.length ≤ f2 → cleanLoop rooted f1 p t = cleanLoop rooted f2 p t := by
    intro n
    induction n with
    | zero =>
      intro f1 f2 p t hp _ _
      have hp0 : p = [] := List.eq_nil_of_length_eq_zero (Nat.le_zero.mp hp)
      subst hp0
      cases f1 <;> cases f2 <;> simp [cleanLoop]
    | succ n ih =>
      intro f1 f2 p t hp h1 h2
      cases p with
      | nil => cases f1 <;> cases f2 <;> simp [cleanLoop]
      | cons c rest =>
        cases f1 with
        | zero => simp at h1
        | succ f1 =>
          cases f2 with
          | zero => simp at h2
          | succ f2 =>
            simp only [cleanLoop]
            have hl := cleanStep_length rooted c rest t
            simp only [List.length_cons] at hp h1 h2
            exact ih f1 f2 _ _ (by omega) (by omega) (by omega)
  exact key path.length fuel path.length path s (le_refl _) h (le_refl _)

theorem cleanRun_nil (rooted : Bool) (s : CleanState) : cleanRun rooted [] s = s := by
  simp [cleanRun, cleanLoop]

theorem cleanRun_cons (rooted : Bool) (c : Char) (rest : List Char) (s : CleanState) :
    cleanRun rooted (c :: rest) s =
      cleanRun rooted (cleanStep rooted (c :: rest) s).1 (cleanStep rooted (c :: rest) s).2 := by
  simp only [cleanRun, List.length_cons, cleanLoop]
  exact cleanLoop_fuel rooted _ _ _ (cleanStep_length rooted c rest s)

theorem atBoundary_append (p q : List Char) :
    atBoundary (p ++ '/' :: q) = atBoundary p := by
  cases p <;> simp [atBoundary]

theorem copyElement_append (p q : List Char) (out : lazybuf) :
    copyElement (p ++ '/' :: q) out =
      ((copyElement p out).1 ++ '/' :: q, (copyElement p out).2) := by
  induction p generalizing out with
  | nil => simp [copyElement]
  | cons c rest ih =>
    simp only [List.cons_append, copyElement]
    split
    · simp
    · exact ih _

/-- An iteration on an input followed by `/` reads what it reads on the input
alone: the lookahead treats the end of the input and a `/` alike. -/
theorem cleanStep_append (rooted : Bool) (c : Char) (rest q : List Char) (s : CleanState) :
    cleanStep rooted (c :: rest ++ '/' :: q) s =
      ((cleanStep rooted (c :: rest) s).1 ++ '/' :: q, (cleanStep rooted (c :: rest) s).2) := by
  simp only [List.cons_append, cleanStep, atBoundary_append]
  cases rest with
  | nil =>
    simp only [List.nil_append, List.head?_cons, List.head?_nil, List.tail_cons, List.tail_nil,
      atBoundary]
    split_ifs <;> simp_all [copyElement]
  | cons d r2 =>
    simp only [List.cons_append, List.head?_cons, List.tail_cons, atBoundary_append]
    split_ifs with h1 h2 h3
    · rfl
    · rfl
    · rfl
    · have := copyElement_append (c :: d :: r2) q (addSlash rooted s.out)
      simp only [List.cons_append] at this
      rw [this]

/-- The loop on `p ++ "/" ++ q` is the loop on `q` from the state the loop on `p`
ends in. -/
theorem cleanRun_append (rooted : Bool) (p q : List Char) (s : CleanState) :
    cleanRun rooted (p ++ '/' :: q) s = cleanRun rooted q (cleanRun rooted p s) := by
  have key : ∀ (n : Nat) (p : List Char) (s : CleanState), p.length ≤ n →
      cleanRun rooted (p ++ '/' :: q) s = cleanRun rooted q (cleanRun rooted p s) := by
    intro n
    induction n with
    | zero =>
      intro p s hp
      have hp0 : p = [] := List.eq_nil_of_length_eq_zero (Nat.le_zero.mp hp)
      subst hp0
      rw [List.nil_append, cleanRun_cons, cleanRun_nil]
      simp [cleanStep]
    | succ n ih =>
      intro p s hp
      cases p with
      | nil =>
        rw [List.nil_append, cleanRun_cons, cleanRun_nil]
        simp [cleanStep]
      | cons c rest =>
        have hl := cleanStep_length rooted c rest s
        simp only [List.length_cons] at hp
        rw [List.cons_append, cleanRun_cons, ← List.cons_append, cleanStep_append,
          cleanRun_cons rooted c rest s]
        exact ih _ _ (by omega)
  exact key p.length p s (le_refl _)

/-- An invariant of the loop: when every iteration on an input of the class `A`
leaves an input of the class and keeps `I`, the loop keeps `I`. -/
theorem cleanRun_invariant (rooted : Bool) (A : List Char → Prop) (I : CleanState → Prop)
    (hstep : ∀ c rest s, A (c :: rest) → I s →
      A (cleanStep rooted (c :: rest) s).1 ∧ I (cleanStep rooted (c :: rest) s).2)
    (p : List Char) (s : CleanState) (hA : A p) (hI : I s) : I (cleanRun rooted p s) := by
  have key : ∀ (n : Nat) (p : List Char) (s : CleanState), p.length ≤ n → A p → I s →
      I (cleanRun rooted p s) := by
    intro n
    induction n with
    | zero =>
      intro p s hp _ hI
      have hp0 : p = [] := List.eq_nil_of_length_eq_zero (Nat.le_zero.mp hp)
      subst hp0
      rw [cleanRun_nil]
      exact hI
    | succ n ih =>
      intro p s hp hA hI
      cases p with
      | nil =>
        rw [cleanRun_nil]
        exact hI
      | cons c rest =>
        have hl := cleanStep_length rooted c rest s
        simp only [List.length_cons] at hp
        rw [cleanRun_cons]
        exact ih _ _ (by omega) (hstep c rest s hA hI).1 (hstep c rest s hA hI).2
  exact key p.length p s (le_refl _) hA hI

theorem backScan_ge (b : lazybuf) (dotdot w : Nat) (h : dotdot ≤ w) :
    dotdot ≤ backScan b dotdot w := by
  induction w with
  | zero => simpa [backScan] using h
  | succ w ih =>
    simp only [backScan]
    split_ifs with hc
    · exact ih (by omega)
    · exact h

theorem copyElement_buf (p : List Char) (out : lazybuf) :
    ∃ e, (copyElement p out).2.buf = out.buf ++ e := by
  induction p generalizing out with
  | nil => exact ⟨[], by simp [copyElement]⟩
  | cons c rest ih =>
    simp only [copyElement]
    split
    · exact ⟨[], by simp⟩
    · obtain ⟨e, he⟩ := ih (out.append c)
      exact ⟨c :: e, by rw [he]; simp [lazybuf.append]⟩

theorem addSlash_buf (rooted : Bool) (out : lazybuf) :
    (addSlash rooted out).buf = out.buf ∨ (addSlash rooted out).buf = out.buf ++ ['/'] := by
  unfold addSlash
  split_ifs
  · right; rfl
  · left; rfl

theorem dotdotElement_rooted (s : CleanState) (t : List Char)
    (hd : s.dotdot = 1) (ht : s.out.buf = '/' :: t) :
    (dotdotElement true s).dotdot = 1 ∧ (dotdotElement true s).out.buf.head? = some '/' := by
  unfold dotdotElement
  by_cases h4 : s.out.w > s.dotdot
  · rw [if_pos h4]
    refine ⟨hd, ?_⟩
    simp only [backtrack]
    have hge := backScan_ge s.out s.dotdot (s.out.w - 1) (by omega)
    obtain ⟨k, hk⟩ : ∃ k, backScan s.out s.dotdot (s.out.w - 1) = k + 1 :=
      ⟨backScan s.out s.dotdot (s.out.w - 1) - 1, by omega⟩
    rw [hk, ht]
    simp
  · rw [if_neg h4, if_neg (by simp)]
    exact ⟨hd, by rw [ht]; rfl⟩

/-- On a rooted path the output keeps its leading `/` and `dotdot` stays `1`. -/
theorem cleanStep_rooted (c : Char) (rest : List Char) (s : CleanState)
    (h : s.dotdot = 1 ∧ s.out.buf.head? = some '/') :
    (cleanStep true (c :: rest) s).2.dotdot = 1 ∧
      (cleanStep true (c :: rest) s).2.out.buf.head? = some '/' := by
  obtain ⟨hd, hh⟩ := h
  obtain ⟨t, ht⟩ : ∃ t, s.out.buf = '/' :: t := by
    cases hb : s.out.buf with
    | nil => rw [hb] at hh; simp at hh
    | cons a t =>
      rw [hb] at hh
      simp only [List.head?_cons, Option.some.injEq] at hh
      exact ⟨t, by rw [hh]⟩
  simp only [cleanStep]
  split_ifs with h1 h2 h3
  · exact ⟨hd, hh⟩
  · exact ⟨hd, hh⟩
  · exact dotdotElement_rooted s t hd ht
  · refine ⟨hd, ?_⟩
    obtain ⟨e, he⟩ := copyElement_buf (c :: rest) (addSlash true s.out)
    show (copyElement (c :: rest) (addSlash true s.out)).2.buf.head? = some '/'
    rw [he]
    rcases addSlash_buf true s.out with hs | hs <;> rw [hs, ht] <;> rfl

theorem cleanRun_rooted (p : List Char) (s : CleanState)
    (h : s.dotdot = 1 ∧ s.out.buf.head? = some '/') :
    (cleanRun true p s).dotdot = 1 ∧ (cleanRun true p s).out.buf.head? = some '/' :=
  cleanRun_invariant true (fun _ => True)
    (fun s => s.dotdot = 1 ∧ s.out.buf.head? = some '/')
    (fun c rest s _ hI => ⟨trivial, cleanStep_rooted c rest s hI⟩) p s trivial h

theorem elements_slash (rest : List Char) : elements ('/' :: rest) = [] :: elements rest := by
  simp [elements]

theorem elements_tail_cons (c : Char) (rest : List Char) (h : c ≠ '/') :
    (elements (c :: rest)).tail = (elements rest).tail := by
  simp only [elements, if_neg h]
  split <;> simp_all

theorem elements_ne_nil (p : List Char) : elements p ≠ [] := by
  cases p with
  | nil => simp [elements]
  | cons c rest =>
    simp only [elements]
    split_ifs
    · simp
    · split <;> simp

theorem elements_append_slash (a b : List Char) :
    elements (a ++ '/' :: b) = elements a ++ elements b := by
  induction a with
  | nil => simp [elements]
  | cons c a ih =>
    by_cases hc : c = '/'
    · simp [elements, hc, ih]
    · rw [List.cons_append]
      simp only [elements, if_neg hc]
      rw [ih]
      cases he : elements a with
      | nil => exact absurd he (elements_ne_nil a)
      | cons e es => simp

theorem elements_no_slash (e : List Char) (h : '/' ∉ e) : elements e = [e] := by
  induction e with
  | nil => simp [elements]
  | cons c e ih =>
    have hc : c ≠ '/' := fun hc => h (by simp [hc])
    have he : '/' ∉ e := fun he => h (List.mem_cons_of_mem _ he)
    simp [elements, hc, ih he]

/-- The copy loop appends the first element of its input. -/
theorem copyElement_first (p : List Char) (out : lazybuf) :
    ∃ e, (copyElement p out).2.buf = out.buf ++ e ∧ '/' ∉ e ∧ (elements p).head? = some e := by
  induction p generalizing out with
  | nil => exact ⟨[], by simp [copyElement], by simp, by simp [elements]⟩
  | cons c rest ih =>
    simp only [copyElement]
    split
    · next h =>
      subst h
      exact ⟨[], by simp, by simp, by simp [elements]⟩
    · next h =>
      obtain ⟨e, he, hs, hh⟩ := ih (out.append c)
      refine ⟨c :: e, by rw [he]; simp [lazybuf.append], ?_, ?_⟩
      · intro hm
        rcases List.mem_cons.mp hm with h0 | h0
        · exact h h0.symm
        · exact hs h0
      · simp only [elements, if_neg h]
        cases hel : elements rest with
        | nil => exact absurd hel (elements_ne_nil rest)
        | cons e2 es =>
          rw [hel] at hh
          simp only [List.head?_cons, Option.some.injEq] at hh
          subst hh
          simp

theorem backScan_skip (b : lazybuf) (dotdot m n : Nat) (hm : dotdot ≤ m)
    (h : ∀ i, i < n → b.index (m + 1 + i) ≠ '/') :
    backScan b dotdot (m + n) = backScan b dotdot m := by
  induction n with
  | zero => rfl
  | succ n ih =>
    have hn : b.index (m + n + 1) ≠ '/' := by
      have := h n (Nat.lt_succ_self n)
      rwa [Nat.add_right_comm] at this
    rw [← Nat.add_assoc]
    simp only [backScan]
    rw [if_pos ⟨by omega, hn⟩]
    exact ih (fun i hi => h i (Nat.lt_succ_of_lt hi))

theorem backScan_stop (b : lazybuf) (dotdot m : Nat) (h : m ≤ dotdot ∨ b.index m = '/') :
    backScan b dotdot m = m := by
  cases m with
  | zero => rfl
  | succ k =>
    simp only [backScan]
    rw [if_neg]
    rintro ⟨h1, h2⟩
    rcases h with h | h
    · omega
    · exact h2 h

/-- The backtrack of a `..` element undoes the writing of a name: it removes
the name and the `/` written before it. -/
theorem backtrack_push (rooted : Bool) (out e : List Char) (dotdot : Nat)
    (hdd : dotdot ≤ out.length) (he : e ≠ []) (hs : '/' ∉ e)
    (hcase : ((rooted ∧ out.length ≠ 1) ∨ (¬ rooted ∧ out.length ≠ 0)) ∨
      dotdot = out.length) :
    backtrack ⟨(addSlash rooted ⟨out⟩).buf ++ e⟩ dotdot = ⟨out⟩ := by
  have hidx : ∀ (pre : List Char) (i : Nat), i < e.length →
      (lazybuf.mk (pre ++ e)).index (pre.length + i) ≠ '/' := by
    intro pre i hi h0
    apply hs
    simp only [lazybuf.index] at h0
    rw [List.getD_append_right _ _ _ _ (Nat.le_add_right _ _), Nat.add_sub_cancel_left,
      List.getD_eq_getElem _ _ hi] at h0
    rw [← h0]
    exact List.getElem_mem _
  by_cases hn : (rooted ∧ out.length ≠ 1) ∨ (¬ rooted ∧ out.length ≠ 0)
  · have hadd : (addSlash rooted ⟨out⟩).buf = out ++ ['/'] := by
      simp only [addSlash, lazybuf.w]
      rw [if_pos hn]
      rfl
    simp only [backtrack, hadd, lazybuf.w, List.length_append, List.length_singleton]
    have h1 : out.length + 1 + e.length - 1 = out.length + e.length := by omega
    rw [h1, backScan_skip _ dotdot out.length e.length hdd, backScan_stop]
    · simp
    · right
      simp only [lazybuf.index, List.append_assoc, List.singleton_append]
      rw [List.getD_append_right _ _ _ _ (le_refl _), Nat.sub_self]
      rfl
    · intro i hi
      have := hidx (out ++ ['/']) i hi
      simpa [Nat.add_assoc] using this
  · have hd : dotdot = out.length := by
      rcases hcase with h | h
      · exact absurd h hn
      · exact h
    have hadd : (addSlash rooted ⟨out⟩).buf = out := by
      simp only [addSlash, lazybuf.w]
      rw [if_neg hn]
    obtain ⟨c, t, hct⟩ : ∃ c t, e = c :: t := by
      cases e with
      | nil => exact absurd rfl he
      | cons c t => exact ⟨c, t, rfl⟩
    simp only [backtrack, hadd, lazybuf.w, List.length_append]
    have h1 : out.length + e.length - 1 = out.length + t.length := by
      rw [hct]; simp only [List.length_cons]; omega
    rw [h1, backScan_skip _ dotdot out.length t.length (le_of_eq hd), backScan_stop]
    · simp
    · left
      exact le_of_eq hd.symm
    · intro i hi
      have := hidx out (1 + i) (by rw [hct]; simp only [List.length_cons]; omega)
      simpa [Nat.add_assoc, Nat.add_comm 1 i] using this

theorem dotdotElement_dotdot_le (rooted : Bool) (s : CleanState) (h : s.dotdot ≤ s.out.w) :
    (dotdotElement rooted s).dotdot ≤ (dotdotElement rooted s).out.w := by
  unfold dotdotElement
  by_cases h4 : s.out.w > s.dotdot
  · rw [if_pos h4]
    have hge := backScan_ge s.out s.dotdot (s.out.w - 1) (by omega)
    simp only [backtrack, lazybuf.w, List.length_take]
    simp only [lazybuf.w] at h4 hge
    omega
  · rw [if_neg h4]
    split_ifs <;> first | exact Nat.le_refl _ | exact h

/-- The position `dotdot` never passes the write position. -/
theorem cleanStep_dotdot_le (rooted : Bool) (c : Char) (rest : List Char) (s : CleanState)
    (h : s.dotdot ≤ s.out.w) :
    (cleanStep rooted (c :: rest) s).2.dotdot ≤ (cleanStep rooted (c :: rest) s).2.out.w := by
  simp only [cleanStep]
  split_ifs with h1 h2 h3
  · exact h
  · exact h
  · exact dotdotElement_dotdot_le rooted s h
  · obtain ⟨e, he⟩ := copyElement_buf (c :: rest) (addSlash rooted s.out)
    show s.dotdot ≤ (copyElement (c :: rest) (addSlash rooted s.out)).2.buf.length
    rw [he]
    simp only [lazybuf.w] at h
    rcases addSlash_buf rooted s.out with hs | hs <;> rw [hs] <;>
      simp only [List.length_append] <;> omega

theorem cleanRun_dotdot_le (rooted : Bool) (p : List Char) (s : CleanState)
    (h : s.dotdot ≤ s.out.w) :
    (cleanRun rooted p s).dotdot ≤ (cleanRun rooted p s).out.w :=
  cleanRun_invariant rooted (fun _ => True) (fun s => s.dotdot ≤ s.out.w)
    (fun c rest s _ hI => ⟨trivial, cleanStep_dotdot_le rooted c rest s hI⟩) p s trivial h

/-- A coupled invariant of the loop: a relation between the unread input and
the state that every iteration keeps holds, at the end, between the empty
input and the final state. -/
theorem cleanRun_relation (rooted : Bool) (R : List Char → CleanState → Prop)
    (hstep : ∀ c rest s, R (c :: rest) s →
      R (cleanStep rooted (c :: rest) s).1 (cleanStep rooted (c :: rest) s).2)
    (hend : ∀ p s, R p s → R [] s)
    (p : List Char) (s : CleanState) (hR : R p s) : R [] (cleanRun rooted p s) := by
  have key : ∀ (n : Nat) (p : List Char) (s : CleanState), p.length ≤ n → R p s →
      R [] (cleanRun rooted p s) := by
    intro n
    induction n with
    | zero =>
      intro p s hp hR
      rw [List.eq_nil_of_length_eq_zero (Nat.le_zero.mp hp), cleanRun_nil]
      exact hend p s hR
    | succ n ih =>
      intro p s hp hR
      cases p with
      | nil =>
        rw [cleanRun_nil]
        exact hR
      | cons c rest =>
        have hl := cleanStep_length rooted c rest s
        simp only [List.length_cons] at hp
        rw [cleanRun_cons]
        exact ih _ _ (by omega) (hstep c rest s hR)
  exact key p.length p s (le_refl _) hR

/-- An output reached from `base` continues `base`: by nothing when no name
was written, and otherwise by something that starts with `/` whenever `base`
needed one before a name. -/
theorem reach_ext (rooted : Bool) (base : List Char) (k : Nat) (out : List Char)
    (h : Reach rooted base k out) :
    ∃ ext, out = base ++ ext ∧ (k = 0 → ext = []) ∧ (0 < k → ext ≠ []) ∧
      ((rooted ∧ base.length ≠ 1) ∨ (¬ rooted ∧ base.length ≠ 0) →
        ext = [] ∨ ext.head? = some '/') := by
  induction h with
  | start => exact ⟨[], by simp, fun _ => rfl, fun h => absurd h (by omega), fun _ => Or.inl rfl⟩
  | push k out e _ he _ _ ih =>
    obtain ⟨ext, hext, h0, _, hsl⟩ := ih
    rcases addSlash_buf rooted ⟨out⟩ with hs | hs
    · refine ⟨ext ++ e, by rw [hs, hext, List.append_assoc], fun h => absurd h (by omega),
        fun _ => by simp [he], ?_⟩
      intro hn
      rcases hsl hn with hx | hx
      · exfalso
        subst hx
        rw [List.append_nil] at hext
        subst hext
        have : (addSlash rooted ⟨out⟩).buf = out ++ ['/'] := by
          simp only [addSlash, lazybuf.w]
          rw [if_pos hn]
          rfl
        rw [this] at hs
        simp at hs
      · right
        cases ext with
        | nil => simp at hx
        | cons a t => simpa using hx
    · refine ⟨ext ++ '/' :: e, by rw [hs, hext]; simp, fun h => absurd h (by omega),
        fun _ => by simp, ?_⟩
      intro hn
      right
      rcases hsl hn with hx | hx
      · subst hx
        rfl
      · cases ext with
        | nil => simp at hx
        | cons a t => simpa using hx

/-- On a path that is not rooted, an output reached from the empty output is
relative and has no `..` element. -/
theorem reach_relative (base : List Char) (k : Nat) (out : List Char)
    (h : Reach false base k out) (hb : base = []) :
    out.head? ≠ some '/' ∧ ['.', '.'] ∉ elements out := by
  induction h with
  | start => subst hb; simp [elements]
  | push k out e _ he hs hne ih =>
    obtain ⟨ih1, ih2⟩ := ih
    obtain ⟨c, t, hct⟩ : ∃ c t, e = c :: t := by
      cases e with
      | nil => exact absurd rfl he
      | cons c t => exact ⟨c, t, rfl⟩
    have hc : c ≠ '/' := fun h0 => hs (by rw [hct, h0]; exact List.mem_cons_self _ _)
    by_cases ho : out = []
    · subst ho
      have : (addSlash false ⟨[]⟩).buf = [] := by simp [addSlash, lazybuf.w]
      rw [this, List.nil_append, elements_no_slash e hs]
      refine ⟨?_, by simpa using hne.symm⟩
      rw [hct]
      simpa using hc
    · have : (addSlash false ⟨out⟩).buf = out ++ ['/'] := by
        simp only [addSlash, lazybuf.w]
        rw [if_pos (Or.inr ⟨by simp, by simpa using ho⟩)]
        rfl
      rw [this, List.append_assoc, List.singleton_append, elements_append_slash,
        elements_no_slash e hs]
      refine ⟨?_, ?_⟩
      · cases out with
        | nil => exact absurd rfl ho
        | cons a t2 => simpa using ih1
      · intro hm
        rcases List.mem_append.mp hm with h0 | h0
        · exact ih2 h0
        · exact hne (List.mem_singleton.mp h0).symm

theorem elements_cons_ne (c : Char) (rest : List Char) (h : c ≠ '/') :
    ∃ e es, elements rest = e :: es ∧ elements (c :: rest) = (c :: e) :: es := by
  cases he : elements rest with
  | nil => exact absurd he (elements_ne_nil rest)
  | cons e es => exact ⟨e, es, rfl, by simp [elements, h, he]⟩

theorem atBoundary_of_elements (rest : List Char) (es : List (List Char))
    (h : elements rest = [] :: es) : atBoundary rest = true := by
  cases rest with
  | nil => rfl
  | cons d r =>
    by_cases hd : d = '/'
    · simp [atBoundary, hd]
    · obtain ⟨e, es2, _, h2⟩ := elements_cons_ne d r hd
      rw [h2] at h
      simp at h

/-- The input the copy loop leaves starts at the end of the first element. -/
theorem copyElement_rest (p : List Char) (out : lazybuf) :
    elements (copyElement p out).1 = [] :: (elements p).tail := by
  induction p generalizing out with
  | nil => simp [copyElement, elements]
  | cons c rest ih =>
    simp only [copyElement]
    split
    · next h =>
      subst h
      rw [elements_slash]
      rfl
    · next h =>
      rw [elements_tail_cons c rest h]
      exact ih _

/-- An iteration on an input that does not climb from depth `k`, in a state
whose output was reached from `base` by writing `k` names: the input left
does not climb from the new depth, at which the new output was reached, and
`dotdot` has not moved. -/
theorem cleanStep_reach (rooted : Bool) (base : List Char) (dd : Nat)
    (hb1 : dd ≤ base.length)
    (hb2 : ((rooted ∧ base.length ≠ 1) ∨ (¬ rooted ∧ base.length ≠ 0)) ∨ dd = base.length)
    (hb3 : rooted = true → 1 ≤ base.length)
    (c : Char) (rest : List Char) (s : CleanState)
    (h : s.dotdot = dd ∧ ∃ k, climbsFrom k (elements (c :: rest)) = false ∧
      Reach rooted base k s.out.buf) :
    (cleanStep rooted (c :: rest) s).2.dotdot = dd ∧
      ∃ k, climbsFrom k (elements (cleanStep rooted (c :: rest) s).1) = false ∧
        Reach rooted base k (cleanStep rooted (c :: rest) s).2.out.buf := by
  obtain ⟨hdd, k, hk, hr⟩ := h
  simp only [cleanStep]
  split_ifs with h1 h2 h3
  · subst h1
    rw [elements_slash] at hk
    simp only [climbsFrom, true_or, if_true] at hk
    exact ⟨hdd, k, hk, hr⟩
  · refine ⟨hdd, k, ?_, hr⟩
    obtain ⟨hc, hbd⟩ := h2
    subst hc
    cases rest with
    | nil => simp [elements, climbsFrom]
    | cons d r2 =>
      simp only [atBoundary, decide_eq_true_eq] at hbd
      subst hbd
      rw [elements_slash]
      have he : elements ('.' :: '/' :: r2) = ['.'] :: elements r2 := by simp [elements]
      rw [he] at hk
      simp only [climbsFrom, or_true, true_or, if_true] at hk ⊢
      exact hk
  · obtain ⟨hc, hh, hbd⟩ := h3
    subst hc
    obtain ⟨r2, hr2⟩ : ∃ r2, rest = '.' :: r2 := by
      cases rest with
      | nil => simp at hh
      | cons d r2 =>
        simp only [List.head?_cons, Option.some.injEq] at hh
        exact ⟨r2, by rw [hh]⟩
    subst hr2
    simp only [List.tail_cons] at hbd ⊢
    -- the elements of the input: `..`, then those of the input left
    have hel : ∃ es, elements ('.' :: '.' :: r2) = ['.', '.'] :: es ∧
        ∀ j, climbsFrom j (elements r2) = climbsFrom j es := by
      cases r2 with
      | nil => exact ⟨[], by simp [elements], fun j => by simp [elements, climbsFrom]⟩
      | cons d2 r3 =>
        simp only [atBoundary, decide_eq_true_eq] at hbd
        subst hbd
        exact ⟨elements r3, by simp [elements], fun j => by
          rw [elements_slash]; simp [climbsFrom]⟩
    obtain ⟨es, hes, hcl⟩ := hel
    rw [hes] at hk
    cases k with
    | zero => simp [climbsFrom] at hk
    | succ k =>
      have hk2 : climbsFrom k es = false := by simpa [climbsFrom] using hk
      obtain ⟨ob, hob⟩ : ∃ ob, s.out.buf = ob := ⟨_, rfl⟩
      rw [hob] at hr
      cases hr with
      | push _ prev e hprev he hs hne =>
        obtain ⟨ext, hext, h0, hpos, _⟩ := reach_ext rooted base k prev hprev
        have hlen : base.length ≤ prev.length := by
          rw [hext]; simp
        have hcase : ((rooted ∧ prev.length ≠ 1) ∨ (¬ rooted ∧ prev.length ≠ 0)) ∨
            dd = prev.length := by
          rcases Nat.eq_zero_or_pos k with hk0 | hk0
          · have : prev = base := by rw [hext, h0 hk0, List.append_nil]
            rw [this]
            exact hb2
          · left
            have hlt : base.length < prev.length := by
              have hne2 := hpos hk0
              rw [hext, List.length_append]
              have : 0 < ext.length := List.length_pos.mpr hne2
              omega
            cases hrt : rooted with
            | true =>
              left
              have := hb3 hrt
              exact ⟨rfl, by omega⟩
            | false =>
              right
              exact ⟨by simp, by omega⟩
        have hpop := backtrack_push rooted prev e dd (le_trans hb1 hlen) he hs hcase
        have hw : s.out.w > s.dotdot := by
          have hel : 0 < e.length := List.length_pos.mpr he
          have hge : prev.length ≤ (addSlash rooted ⟨prev⟩).buf.length := by
            rcases addSlash_buf rooted ⟨prev⟩ with h5 | h5 <;> simp [h5]
          simp only [lazybuf.w]
          rw [hdd, hob, List.length_append]
          omega
        have hout : s.out = ⟨(addSlash rooted ⟨prev⟩).buf ++ e⟩ := by
          cases hso : s.out with
          | mk b =>
            rw [hso] at hob
            simp only at hob
            rw [hob]
        simp only [dotdotElement, if_pos hw]
        refine ⟨hdd, k, ?_, ?_⟩
        · rw [hcl]; exact hk2
        · show Reach rooted base k (backtrack s.out s.dotdot).buf
          rw [hdd, hout, hpop]
          exact hprev
  · obtain ⟨e', es, hel, hel2⟩ := elements_cons_ne c rest h1
    obtain ⟨e, he, hs, hh⟩ := copyElement_first (c :: rest) (addSlash rooted s.out)
    have hrest := copyElement_rest (c :: rest) (addSlash rooted s.out)
    rw [hel2] at hh hrest hk
    simp only [List.head?_cons, Option.some.injEq] at hh
    subst hh
    simp only [List.tail_cons] at hrest
    have hne1 : c :: e' ≠ ['.'] := by
      intro h0
      simp only [List.cons.injEq] at h0
      obtain ⟨hc, he0⟩ := h0
      subst he0
      exact h2 ⟨hc, atBoundary_of_elements rest es hel⟩
    have hne2 : c :: e' ≠ ['.', '.'] := by
      intro h0
      simp only [List.cons.injEq] at h0
      obtain ⟨hc, he0⟩ := h0
      subst he0
      apply h3
      cases rest with
      | nil => simp [elements] at hel
      | cons d r2 =>
        by_cases hd : d = '/'
        · subst hd
          rw [elements_slash] at hel
          simp at hel
        · obtain ⟨e2, es2, hr2, hr3⟩ := elements_cons_ne d r2 hd
          rw [hr3] at hel
          simp only [List.cons.injEq] at hel
          obtain ⟨⟨hd2, he2⟩, _⟩ := hel
          subst he2
          exact ⟨hc, by simp [hd2], by simpa using atBoundary_of_elements r2 es2 hr2⟩
    refine ⟨hdd, k + 1, ?_, ?_⟩
    · show climbsFrom (k + 1) (elements (copyElement (c :: rest) (addSlash rooted s.out)).1) =
        false
      rw [hrest]
      simp only [climbsFrom, true_or, if_true]
      simpa [climbsFrom, hne1, hne2] using hk
    · show Reach rooted base (k + 1) (copyElement (c :: rest) (addSlash rooted s.out)).2.buf
      rw [he]
      exact Reach.push k s.out.buf (c :: e') hr (by simp) hs hne2

theorem cleanChars_rooted (p : List Char) :
    cleanChars ('/' :: p) = (cleanRun true p ⟨⟨['/']⟩, 1⟩).out.buf ∧
      (cleanRun true p ⟨⟨['/']⟩, 1⟩).out.buf.head? = some '/' := by
  have hinv := cleanRun_rooted p ⟨⟨['/']⟩, 1⟩ ⟨rfl, rfl⟩
  refine ⟨?_, hinv.2⟩
  have hw : (cleanRun true p ⟨⟨['/']⟩, 1⟩).out.w ≠ 0 := by
    intro h0
    have hnil := List.eq_nil_of_length_eq_zero h0
    rw [hnil] at hinv
    simp at hinv
  simp only [cleanChars, List.head?_cons, decide_True, if_true, List.tail_cons,
    lazybuf.append, List.nil_append, lazybuf.string]
  simp only [reduceCtorEq, if_false]
  exact if_neg hw

theorem cleanChars_relative (c : Char) (p : List Char) (hc : c ≠ '/') :
    cleanChars (c :: p) =
      if (cleanRun false (c :: p) ⟨⟨[]⟩, 0⟩).out.w = 0 then ['.']
      else (cleanRun false (c :: p) ⟨⟨[]⟩, 0⟩).out.buf := by
  simp [cleanChars, hc, cleanRun, lazybuf.string]

/-- The loop on an input that does not climb, from a state whose `dotdot` is
within the output `base` (and at its end when `base` takes no `/` before a
name): the final output was reached from `base` by writing names. -/
theorem cleanRun_reach (rooted : Bool) (d : List Char) (s0 : CleanState)
    (hb1 : s0.dotdot ≤ s0.out.buf.length)
    (hb2 : ((rooted ∧ s0.out.buf.length ≠ 1) ∨ (¬ rooted ∧ s0.out.buf.length ≠ 0)) ∨
      s0.dotdot = s0.out.buf.length)
    (hb3 : rooted = true → 1 ≤ s0.out.buf.length)
    (hd : climbsFrom 0 (elements d) = false) :
    ∃ k, Reach rooted s0.out.buf k (cleanRun rooted d s0).out.buf := by
  have key := cleanRun_relation rooted
    (fun q s => s.dotdot = s0.dotdot ∧ ∃ k, climbsFrom k (elements q) = false ∧
      Reach rooted s0.out.buf k s.out.buf)
    (fun c rest s h => cleanStep_reach rooted s0.out.buf s0.dotdot hb1 hb2 hb3 c rest s h)
    (fun q s h => ⟨h.1, by
      obtain ⟨k, _, hr⟩ := h.2
      exact ⟨k, by simp [elements, climbsFrom], hr⟩⟩)
    d s0 ⟨rfl, 0, hd, Reach.start⟩
  obtain ⟨_, k, _, hr⟩ := key
  exact ⟨k, hr⟩

/-- Joining a non-empty root with a path that does not climb:
`Clean(r + "/" + d)` is `Clean(r)`, or it continues `Clean(r)` with `/`, or
`Clean(r)` is `/` itself and the result is rooted, or `Clean(r)` is `.` and the
result is relative and has no `..` element. -/
theorem cleanChars_under (r d : List Char) (hr : r ≠ [])
    (hd : climbsFrom 0 (elements d) = false) :
    cleanChars (r ++ '/' :: d) = cleanChars r ∨
    (cleanChars r ++ ['/']) <+: cleanChars (r ++ '/' :: d) ∨
    (cleanChars r = ['/'] ∧ ['/'] <+: cleanChars (r ++ '/' :: d)) ∨
    (cleanChars r = ['.'] ∧ ¬ ['/'] <+: cleanChars (r ++ '/' :: d) ∧
      ['.', '.'] ∉ elements (cleanChars (r ++ '/' :: d))) := by
  cases r with
  | nil => exact absurd rfl hr
  | cons c p =>
    by_cases hc : c = '/'
    · subst hc
      obtain ⟨e1, hh⟩ := cleanChars_rooted p
      obtain ⟨e2, _⟩ := cleanChars_rooted (p ++ '/' :: d)
      rw [List.cons_append, e2, e1, cleanRun_append]
      have hinv := cleanRun_rooted p ⟨⟨['/']⟩, 1⟩ ⟨rfl, rfl⟩
      obtain ⟨t, ht⟩ : ∃ t, (cleanRun true p ⟨⟨['/']⟩, 1⟩).out.buf = '/' :: t := by
        cases hb : (cleanRun true p ⟨⟨['/']⟩, 1⟩).out.buf with
        | nil => rw [hb] at hh; simp at hh
        | cons a t =>
          rw [hb] at hh
          simp only [List.head?_cons, Option.some.injEq] at hh
          exact ⟨t, by rw [hh]⟩
      have hlen : 1 ≤ (cleanRun true p ⟨⟨['/']⟩, 1⟩).out.buf.length := by
        rw [ht]; simp
      obtain ⟨k, hreach⟩ := cleanRun_reach true d (cleanRun true p ⟨⟨['/']⟩, 1⟩)
        (by rw [hinv.1]; exact hlen)
        (by
          by_cases hw : (cleanRun true p ⟨⟨['/']⟩, 1⟩).out.buf.length = 1
          · right; rw [hinv.1, hw]
          · left; left; exact ⟨rfl, hw⟩)
        (fun _ => hlen) hd
      obtain ⟨ext, hext, _, _, hcx⟩ := reach_ext true _ k _ hreach
      rw [hext]
      by_cases hw : (cleanRun true p ⟨⟨['/']⟩, 1⟩).out.buf.length = 1
      · right; right; left
        have ht0 : t = [] := by
          simp only [ht, List.length_cons] at hw
          exact List.eq_nil_of_length_eq_zero (by omega)
        subst ht0
        rw [ht]
        exact ⟨rfl, ext, rfl⟩
      · rcases hcx (Or.inl ⟨rfl, hw⟩) with h0 | h0
        · left
          rw [h0, List.append_nil]
        · right; left
          cases ext with
          | nil => simp at h0
          | cons a t =>
            simp only [List.head?_cons, Option.some.injEq] at h0
            subst h0
            exact ⟨t, by simp⟩
    · rw [cleanChars_relative c p hc]
      rw [List.cons_append, cleanChars_relative c _ hc, ← List.cons_append, cleanRun_append]
      have hle := cleanRun_dotdot_le false (c :: p) ⟨⟨[]⟩, 0⟩ (Nat.le_refl _)
      simp only [lazybuf.w] at hle
      obtain ⟨k, hreach⟩ := cleanRun_reach false d (cleanRun false (c :: p) ⟨⟨[]⟩, 0⟩) hle
        (by
          by_cases hw : (cleanRun false (c :: p) ⟨⟨[]⟩, 0⟩).out.buf.length = 0
          · right; omega
          · left; right; exact ⟨by simp, hw⟩)
        (fun h => absurd h (by simp)) hd
      by_cases hw : (cleanRun false (c :: p) ⟨⟨[]⟩, 0⟩).out.w = 0
      · right; right; right
        have hnil : (cleanRun false (c :: p) ⟨⟨[]⟩, 0⟩).out.buf = [] :=
          List.eq_nil_of_length_eq_zero hw
        have hrel := reach_relative _ k _ hreach hnil
        rw [if_pos hw]
        refine ⟨rfl, ?_⟩
        split_ifs with hw2
        · exact ⟨by decide, by decide⟩
        · refine ⟨?_, hrel.2⟩
          rintro ⟨t, ht⟩
          apply hrel.1
          rw [← ht]
          rfl
      · obtain ⟨ext, hext, _, _, hcx⟩ := reach_ext false _ k _ hreach
        have hw2 : (cleanRun false d (cleanRun false (c :: p) ⟨⟨[]⟩, 0⟩)).out.w ≠ 0 := by
          simp only [lazybuf.w, hext, List.length_append]
          simp only [lazybuf.w] at hw
          omega
        rw [if_neg hw, if_neg hw2, hext]
        rcases hcx (Or.inr ⟨by simp, hw⟩) with h0 | h0
        · left
          rw [h0, List.append_nil]
        · right; left
          cases ext with
          | nil => simp at h0
          | cons a t =>
            simp only [List.head?_cons, Option.some.injEq] at h0
            subst h0
            exact ⟨t, by simp⟩

/-- Go's table of cases for `Clean` (`path_test.go`), a part of it. -/
theorem Clean_examples :
    Clean "" = "." ∧ Clean "abc" = "abc" ∧ Clean "abc/def" = "abc/def" ∧ Clean "." = "." ∧
    Clean ".." = ".." ∧ Clean "../.." = "../.." ∧ Clean "../../abc" = "../../abc" ∧
    Clean "/abc" = "/abc" ∧ Clean "/" = "/" ∧ Clean "abc/" = "abc" ∧ Clean "./" = "." ∧
    Clean "../../" = "../.." ∧ Clean "/abc/" = "/abc" ∧
    Clean "abc//def//ghi" = "abc/def/ghi" ∧ Clean "///abc" = "/abc" ∧
    Clean "//abc//" = "/abc" ∧ Clean "abc/./def" = "abc/def" ∧
    Clean "/./abc/def" = "/abc/def" ∧ Clean "abc/." = "abc" ∧
    Clean "abc/def/ghi/../jkl" = "abc/def/jkl" ∧ Clean "abc/def/../ghi/../jkl" = "abc/jkl" ∧
    Clean "abc/def/.." = "abc" ∧ Clean "abc/def/../.." = "." ∧
    Clean "/abc/def/../.." = "/" ∧ Clean "abc/def/../../.." = ".." ∧
    Clean "/abc/def/../../.." = "/" ∧
    Clean "abc/def/../../../ghi/jkl/../../../mno" = "../../mno" ∧
    Clean "abc/./../def" = "def" ∧ Clean "abc//./../def" = "def" ∧
    Clean "abc/../../././../def" = "../../def" := by
  decide

/-- Paths that climb above the directory they are relative to, and paths
that do not. -/
theorem climbs_examples :
    climbs "../etc" = true ∧ climbs ".." = true ∧ climbs "a/../../b" = true ∧
    climbs "/.." = true ∧ climbs "a/../b" = false ∧ climbs "docs/img/.." = false ∧
    climbs "" = false ∧ climbs "a//./.." = false ∧ climbs "a/b/../../c" = false ∧
    climbs "..a/b.." = false := by
  decide

/-- Go's table of cases for `Join`, a part of it. -/
theorem Join_examples :
    Join [] = "" ∧ Join ["a"] = "a" ∧ Join ["a", ""] = "a" ∧ Join ["", "a"] = "a" ∧
    Join ["a", "b"] = "a/b" ∧ Join ["a/", "b"] = "a/b" ∧ Join ["a/", ""] = "a" ∧
    Join ["", ""] = "" ∧ Join ["/", "a"] = "/a" ∧ Join ["/", ""] = "/" ∧
    Join ["a", "b", "c"] = "a/b/c" := by
  decide

/-- With a non-empty first element, `Join` cleans the two elements joined by
`/`, also when the second is empty. -/
theorem Join_pair (a b : String) (ha : a ≠ "") :
    Join [a, b] = ⟨cleanChars (a.data ++ '/' :: b.data)⟩ := by
  have hdata : a.data ≠ [] := by
    intro h
    apply ha
    cases a
    simp_all
  have hlen : 0 < a.data.length := List.length_pos.mpr hdata
  simp only [Join, List.foldl_cons, List.foldl_nil, List.length_nil, Nat.zero_add]
  rw [if_neg (by omega)]
  have hlen2 : 0 < a.length := hlen
  simp [Clean, ha, hlen2]

end pathModule

/-! ## The root prefix -/

namespace filen

variable {σ : Type}

/-- The first call `Fs.List` makes on the session is `PathToUUID` on
`resolvePath dir`, creating missing directories. -/
theorem List_calls (f : Fs σ) (w : World σ) (dir : String) :
    ∃ rest, (f.List w dir).2.calls =
      w.calls ++ sdk.Call.PathToUUID (f.resolvePath dir) true :: rest := by
  rcases h1 : f.filen.PathToUUID w.remote (f.resolvePath dir) true with ⟨⟨uuid, e1⟩, s1⟩
  cases e1 with
  | some e =>
    rw [List_resolve_error f w dir e (by rw [h1])]
    exact ⟨[], rfl⟩
  | none =>
    rcases h2 : f.filen.ReadDirectory s1 uuid with ⟨⟨files, directories, e2⟩, s2⟩
    cases e2 with
    | some e =>
      rw [List_read_error f w dir e (by rw [h1]) (by rw [h1]; simp [h2])]
      exact ⟨[sdk.Call.ReadDirectory
        (f.filen.PathToUUID w.remote (f.resolvePath dir) true).1.1], by simp⟩
    | none =>
      rw [List_ok f w dir uuid s1 s2 files directories h1 h2]
      exact ⟨[sdk.Call.ReadDirectory uuid], by simp⟩

/-- C8, as stated, fails.  With root `/backup` the path `../etc`, which climbs
above the directory it is relative to, resolves to `/etc`, outside the root.
With root `/` the path `a`, which does not climb, resolves to `/a`, which is
not `/` followed by a separator; with root `.` it resolves to `a`, which does
not start with `./`. -/
theorem resolvePath_outside_root :
    (sampleFs.root ≠ "" ∧ pathModule.climbs "../etc" = true ∧
      sampleFs.resolvePath "../etc" = "/etc" ∧
      ¬ (sampleFs.resolvePath "../etc" = pathModule.Clean sampleFs.root ∨
        pathModule.startsWith (sampleFs.resolvePath "../etc")
          (pathModule.Clean sampleFs.root ++ "/"))) ∧
    (pathModule.climbs "a" = false ∧
      ¬ ((Fs.mk "remote" "/" sampleSession).resolvePath "a" = pathModule.Clean "/" ∨
        pathModule.startsWith ((Fs.mk "remote" "/" sampleSession).resolvePath "a")
          (pathModule.Clean "/" ++ "/"))) ∧
    (¬ ((Fs.mk "remote" "." sampleSession).resolvePath "a" = pathModule.Clean "." ∨
        pathModule.startsWith ((Fs.mk "remote" "." sampleSession).resolvePath "a")
          (pathModule.Clean "." ++ "/"))) := by
  refine ⟨⟨by decide, by decide, by decide, by decide⟩, ⟨by decide, by decide⟩, by decide⟩

/-- C8, amended: for a filesystem with a non-empty root `r` and a path `dir`
that does not climb above the directory it is relative to (each `..` element
of it cancels an earlier name of it), the path `Fs.List` hands to `PathToUUID`
is `resolvePath dir = path.Join(r, dir)`, and it lies under the root: it is
`path.Clean(r)`, or it starts with `path.Clean(r)` followed by `/`, or
`path.Clean(r)` is `/` and it starts with `/`, or `path.Clean(r)` is `.` and it
is a relative path (no leading `/`) with no `..` element. -/
theorem resolvePath_under_root (f : Fs σ) (w : World σ) (dir : String)
    (hroot : f.root ≠ "") (hclimb : pathModule.climbs dir = false) :
    (∃ rest, (f.List w dir).2.calls =
      w.calls ++ sdk.Call.PathToUUID (f.resolvePath dir) true :: rest) ∧
    f.resolvePath dir = pathModule.Join [f.root, dir] ∧
    (f.resolvePath dir = pathModule.Clean f.root ∨
      pathModule.startsWith (f.resolvePath dir) (pathModule.Clean f.root ++ "/") ∨
      (pathModule.Clean f.root = "/" ∧ pathModule.startsWith (f.resolvePath dir) "/") ∨
      (pathModule.Clean f.root = "." ∧ ¬ pathModule.startsWith (f.resolvePath dir) "/" ∧
        pathModule.hasDotDot (f.resolvePath dir) = false)) := by
  refine ⟨List_calls f w dir, rfl, ?_⟩
  have hr : f.root.data ≠ [] := by
    intro h
    apply hroot
    cases hf : f.root
    simp_all
  have key := pathModule.cleanChars_under f.root.data dir.data hr hclimb
  simp only [Fs.resolvePath, pathModule.Join_pair f.root dir hroot, pathModule.Clean,
    pathModule.startsWith, pathModule.hasDotDot]
  rcases key with h | h | ⟨h1, h2⟩ | ⟨h1, h2, h3⟩
  · left
    rw [h]
  · right; left
    exact h
  · right; right; left
    exact ⟨by rw [h1], h2⟩
  · right; right; right
    exact ⟨by rw [h1], h2, by simpa using h3⟩

theorem resolvePath_under_root_witness :
    (∃ rest, (sampleFs.List sampleWorld "docs/tmp/../img").2.calls =
      sampleWorld.calls ++
        sdk.Call.PathToUUID (sampleFs.resolvePath "docs/tmp/../img") true :: rest) ∧
    sampleFs.resolvePath "docs/tmp/../img" =
      pathModule.Join [sampleFs.root, "docs/tmp/../img"] ∧
    (sampleFs.resolvePath "docs/tmp/../img" = pathModule.Clean sampleFs.root ∨
      pathModule.startsWith (sampleFs.resolvePath "docs/tmp/../img")
        (pathModule.Clean sampleFs.root ++ "/") ∨
      (pathModule.Clean sampleFs.root = "/" ∧
        pathModule.startsWith (sampleFs.resolvePath "docs/tmp/../img") "/") ∨
      (pathModule.Clean sampleFs.root = "." ∧
        ¬ pathModule.startsWith (sampleFs.resolvePath "docs/tmp/../img") "/" ∧
        pathModule.hasDotDot (sampleFs.resolvePath "docs/tmp/../img") = false)) :=
  resolvePath_under_root sampleFs sampleWorld "docs/tmp/../img" (by decide) (by decide)

end filen
